import Mathlib

/-!
Verification model of the UPI-Theft-Research repository
(`src/heatmaps.py`, `src/summ_stats.py`, `src/utils/utils.py`).

The repository joins tabular statistics (CSV) against geographic
boundary tables and renders choropleth maps.  The model below embeds,
faithfully to pandas semantics, the data-wrangling core:

* region-code cleaning: `main_data['District_Code'].str.strip()` and
  `.str.split(',')` (heatmaps.py lines 48-49);
* row expansion: `main_data.explode('District_Code')` followed by a
  second `.str.strip()` (heatmaps.py lines 64-66);
* the left merge `india_districts.merge(..., how='left')`
  (heatmaps.py lines 69-74, summ_stats.py lines 44-49);
* the colour-scale selection `if vmin is None or vmax is None: ...`
  (heatmaps.py lines 54-62, summ_stats.py lines 51-54);
* the derived adoption rate
  `(main_data[users_col] / main_data['Population_2011']) * 100`
  (heatmaps.py line 161), with IEEE-754 division semantics as pandas
  performs it (x/0 = ±inf for x ≠ 0, 0/0 = NaN, NaN propagates);
* the lazy GeoJSON→Shapefile conversion `ensure_shapefile`
  (heatmaps.py lines 25-33, utils.py lines 12-22).

Strings are modelled as lists of characters so that the Python string
primitives `str.strip` and `str.split(',')` can be given exact
executable counterparts.
-/

/-- Character strings of the model: Python `str` values are embedded as
their lists of characters. -/
abbrev Str : Type := List Char

/-- Python `str.strip()` (no argument): remove leading and trailing
whitespace.  `pandas.Series.str.strip` applies this to every cell. -/
def pyStrip (s : Str) : Str :=
  ((s.dropWhile Char.isWhitespace).reverse.dropWhile Char.isWhitespace).reverse

/-- Python `str.split(',')`: split on every comma, keeping empty
tokens; on an input with no comma the result is the one-element list
holding the whole input (`''.split(',') == ['']`). -/
def pySplitComma : Str → List Str
  | [] => [[]]
  | c :: rest =>
    if c = ',' then [] :: pySplitComma rest
    else
      match pySplitComma rest with
      | [] => [[c]]
      | t :: ts => (c :: t) :: ts

/-- The numeric columns of one row of `data/main_data.csv` other than
`District_Code`.  `Theft_Rate_*` cells are modelled as exact rationals;
`Users_*` and `Population_2011` cells are `Option ℚ` so that a missing
cell (pandas `NaN`) is representable. -/
structure MainFields where
  rate2017 : ℚ
  rate2018 : ℚ
  rate2019 : ℚ
  users2018 : Option ℚ
  users2019 : Option ℚ
  users2020 : Option ℚ
  population2011 : Option ℚ
  deriving DecidableEq, Repr

/-- One row of `main_data` while `District_Code` holds a single string
(before `.str.split(',')`, and again after `.explode`). -/
structure CodeRow where
  districtCode : Str
  fields : MainFields
  deriving DecidableEq, Repr

/-- One row of `main_data` after `.str.split(',')`: the
`District_Code` cell holds a list of code strings. -/
structure ListRow where
  districtCodes : List Str
  fields : MainFields
  deriving DecidableEq, Repr

/-- `main_data['District_Code'] = main_data['District_Code'].str.strip()`
(heatmaps.py line 48, repeated at line 66 on the exploded frame):
strip whitespace from the `District_Code` cell of every row. -/
def stripCodeCol (t : List CodeRow) : List CodeRow :=
  t.map fun r => ⟨pyStrip r.districtCode, r.fields⟩

/-- `main_data['District_Code'] = main_data['District_Code'].str.split(',')`
(heatmaps.py line 49): split every `District_Code` cell on commas. -/
def splitCodeCol (t : List CodeRow) : List ListRow :=
  t.map fun r => ⟨pySplitComma r.districtCode, r.fields⟩

/-- `main_data.explode('District_Code')` (heatmaps.py line 65): one
output row per element of the list cell, all other fields copied
unchanged.  (pandas would emit a single NaN row for an empty list, but
`str.split` never produces an empty list, so that case is
unreachable here.) -/
def explodeCodes (t : List ListRow) : List CodeRow :=
  t.flatMap fun r => r.districtCodes.map fun c => ⟨c, r.fields⟩

/-- The full cleaning pipeline of heatmaps.py lines 48-49 and 64-66:
strip the raw cell, split it on commas, explode, then strip each
exploded code again. -/
def mainDataExploded (t : List CodeRow) : List CodeRow :=
  stripCodeCol (explodeCodes (splitCodeCol (stripCodeCol t)))

/-- The per-field effect of the cleaning pipeline on one raw
`District_Code` cell: the list of codes the pipeline emits for it. -/
def normalizeCodes (s : Str) : List Str :=
  (pySplitComma (pyStrip s)).map pyStrip

/-- Python builtin `min` over a list (`vmin = min(theft_rates)`,
heatmaps.py line 61): `none` models the `ValueError` Python raises on
an empty list. -/
def pyMin (l : List ℚ) : Option ℚ :=
  match l with
  | [] => none
  | x :: xs => some (xs.foldl min x)

/-- Python builtin `max` over a list (`vmax = max(theft_rates)`,
heatmaps.py line 62): `none` models the `ValueError` on an empty
list. -/
def pyMax (l : List ℚ) : Option ℚ :=
  match l with
  | [] => none
  | x :: xs => some (xs.foldl max x)

/-- The three reporting years of the theft data, `[2017, 2018, 2019]`
(heatmaps.py line 58). -/
inductive TYear where
  | y2017 | y2018 | y2019
  deriving DecidableEq, Repr

/-- Column lookup `main_data[f'Theft_Rate_{year}']`. -/
def theftRateOf : TYear → MainFields → ℚ
  | .y2017, f => f.rate2017
  | .y2018, f => f.rate2018
  | .y2019, f => f.rate2019

/-- The list built by heatmaps.py lines 57-60: start from `[]` and
`extend` it with the `Theft_Rate_{yr}` column for each of 2017, 2018,
2019, taken from the raw CSV (all rows, before any cleaning or
joining). -/
def theftRatesAllYears (t : List CodeRow) : List ℚ :=
  t.map (fun r => theftRateOf .y2017 r.fields)
    ++ t.map (fun r => theftRateOf .y2018 r.fields)
    ++ t.map (fun r => theftRateOf .y2019 r.fields)

/-- Colour-scale selection of `generate_theft_heatmap` (heatmaps.py
lines 54-62): if either `vmin` or `vmax` is `None`, both are
recomputed as `min`/`max` of the concatenated three year columns of
the raw table; otherwise the supplied pair is used unchanged.  The
result is the `(vmin, vmax)` pair actually passed to the plot call;
`none` models the `ValueError` of `min([])`/`max([])` on an empty
table. -/
def theftScale (vmin vmax : Option ℚ) (t : List CodeRow) : Option (ℚ × ℚ) :=
  match vmin, vmax with
  | some a, some b => some (a, b)
  | _, _ =>
    match pyMin (theftRatesAllYears t), pyMax (theftRatesAllYears t) with
    | some lo, some hi => some (lo, hi)
    | _, _ => none

/-- Colour-scale selection of `generate_summary_stat_heatmap`
(summ_stats.py lines 51-54): if either endpoint is `None`, both are
recomputed as `summary_data[column_name].min()` / `.max()` over the
selected column.  A `none` component models the `NaN` pandas returns
for the min/max of an empty column. -/
def summScale (vmin vmax : Option ℚ) (col : List ℚ) : Option ℚ × Option ℚ :=
  match vmin, vmax with
  | some a, some b => (some a, some b)
  | _, _ => (pyMin col, pyMax col)

/-- One boundary feature (one row of the `india_districts` /
`india_states` GeoDataFrame): the join key column (`HASC_2` resp.
`STNAME_SH`) plus all remaining attributes — geometry included —
bundled opaquely in `attrs`. -/
structure BRow (β : Type) where
  hasc2 : Str
  attrs : β
  deriving DecidableEq, Repr

/-- One row of the right-hand side of the merge: the two selected
columns `[['District_Code', value_column]]` of the exploded
statistics frame (heatmaps.py line 70, summ_stats.py line 45). -/
structure SRow where
  districtCode : Str
  value : ℚ
  deriving DecidableEq, Repr

/-- The output rows a pandas left merge produces for one left row `b`:
one row per right row whose `District_Code` equals `b`'s key (in
right-table order), or the single row `(b, none)` — pandas `NaN` in
the statistics columns — when nothing matches. -/
def mergeBlock {β : Type} (right : List SRow) (b : BRow β) :
    List (BRow β × Option SRow) :=
  match right.filter (fun s => decide (s.districtCode = b.hasc2)) with
  | [] => [(b, none)]
  | m :: ms => (m :: ms).map fun s => (b, some s)

/-- `left.merge(right, left_on=key, right_on='District_Code',
how='left')` (heatmaps.py lines 69-74, summ_stats.py lines 44-49),
with exact pandas semantics: for each left row in order, emit one
output row per matching right row (in right-table order); a left row
with no match is emitted once, paired with `none` (pandas `NaN`). -/
def pdMergeLeft {β : Type} (left : List (BRow β)) (right : List SRow) :
    List (BRow β × Option SRow) :=
  left.flatMap (mergeBlock right)

/-- Column selection `main_data_exploded[['District_Code',
theft_rate_col]]` (heatmaps.py line 70). -/
def selectTheft (year : TYear) (t : List CodeRow) : List SRow :=
  t.map fun r => ⟨r.districtCode, theftRateOf year r.fields⟩

/-- The merged frame of `generate_theft_heatmap` for a given year:
clean and explode the raw statistics table, select the key and value
columns, and left-merge the boundary table against it. -/
def theftMergedData {β : Type} (boundary : List (BRow β)) (raw : List CodeRow)
    (year : TYear) : List (BRow β × Option SRow) :=
  pdMergeLeft boundary (selectTheft year (mainDataExploded raw))

/-- A pandas float cell: an exact numeric value, `NaN`, or a signed
infinity.  Needed because pandas division by zero produces infinities,
not errors. -/
inductive PVal where
  | num (q : ℚ)
  | nan
  | inf
  | ninf
  deriving DecidableEq, Repr

/-- Element-wise pandas division of two numeric cells, each possibly
missing (IEEE-754 semantics as numpy applies them): any `NaN` operand
propagates; `x / 0` is `+inf` for `x > 0`, `-inf` for `x < 0`, and
`NaN` for `x = 0`; otherwise exact division. -/
def seriesDiv : Option ℚ → Option ℚ → PVal
  | none, _ => .nan
  | some _, none => .nan
  | some u, some p =>
    if p = 0 then
      if u = 0 then .nan else if 0 < u then .inf else .ninf
    else .num (u / p)

/-- Multiplication of a float cell by the literal `100` (finite times
a positive constant; `NaN` and infinities are preserved). -/
def pvalTimes100 : PVal → PVal
  | .num q => .num (q * 100)
  | .nan => .nan
  | .inf => .inf
  | .ninf => .ninf

/-- The derived column of `generate_adoption_heatmap` (heatmaps.py
line 161): `(main_data[users_col] / main_data['Population_2011']) * 100`
evaluated on one row. -/
def adoptionRate (users population : Option ℚ) : PVal :=
  pvalTimes100 (seriesDiv users population)

/-- The renderer's missing-value test: `merged_data.plot` paints a
cell with `missing_kwds={'color': ..., 'label': 'No Data'}` exactly
when the cell is `NaN` (heatmaps.py line 203). -/
def isNoData : PVal → Bool
  | .nan => true
  | _ => false

/-- Path constant `india_districts_gjson` (heatmaps.py line 7). -/
def india_districts_gjson : String := "data/INDIA_DISTRICTS.geojson"

/-- Path constant `india_districts_shp` (heatmaps.py line 8). -/
def india_districts_shp : String := "data/gadm41_IND_2.shp"

/-- `GeoUtils.convert_geojson_to_shp` (utils.py lines 12-22): read the
GeoJSON at `inputPath` and write it out at `outputPath`.  The file
system is modelled as the list of existing paths; reading a missing
input raises (`none`), a successful run adds the output path. -/
def convert_geojson_to_shp (fs : List String) (inputPath outputPath : String) :
    Option (List String) :=
  if inputPath ∈ fs then some (outputPath :: fs) else none

/-- `ensure_shapefile` (heatmaps.py lines 25-33): if the shapefile
already exists do nothing, otherwise convert the GeoJSON.  The `Bool`
component records whether the converter was invoked; `none` models an
uncaught exception from the converter. -/
def ensure_shapefile (fs : List String) : Option (List String × Bool) :=
  if india_districts_shp ∈ fs then some (fs, false)
  else (convert_geojson_to_shp fs india_districts_gjson india_districts_shp).map
    fun fs2 => (fs2, true)

/-! ### Helper lemmas -/

/-- `dropWhile` is idempotent. -/
theorem dropWhile_idem {α : Type} (p : α → Bool) (l : List α) :
    (l.dropWhile p).dropWhile p = l.dropWhile p := by
  induction l with
  | nil => simp
  | cons a l ih => by_cases h : p a <;> simp [List.dropWhile_cons, h, ih]

/-- If `a ++ b` is untouched by `dropWhile p`, so is `a`. -/
theorem dropWhile_append_self {α : Type} (p : α → Bool) (a b : List α)
    (h : List.dropWhile p (a ++ b) = a ++ b) : List.dropWhile p a = a := by
  cases a with
  | nil => simp
  | cons x a2 =>
    by_cases hx : p x
    · exfalso
      rw [List.cons_append, List.dropWhile_cons, if_pos hx] at h
      have hlen := (List.dropWhile_sublist (l := a2 ++ b) p).length_le
      rw [h] at hlen
      simp [List.length_cons] at hlen
    · rw [List.dropWhile_cons, if_neg hx]

/-- Python `str.strip` is idempotent: its output carries no leading or
trailing whitespace. -/
theorem pyStrip_idem (s : Str) : pyStrip (pyStrip s) = pyStrip s := by
  have hA := dropWhile_idem Char.isWhitespace s
  obtain ⟨t, ht⟩ :=
    List.dropWhile_suffix (l := (s.dropWhile Char.isWhitespace).reverse) Char.isWhitespace
  have hrev : s.dropWhile Char.isWhitespace
      = ((s.dropWhile Char.isWhitespace).reverse.dropWhile Char.isWhitespace).reverse
        ++ t.reverse := by
    have h2 := congrArg List.reverse ht
    simpa using h2.symm
  have hBrev : List.dropWhile Char.isWhitespace
        ((s.dropWhile Char.isWhitespace).reverse.dropWhile Char.isWhitespace).reverse
      = ((s.dropWhile Char.isWhitespace).reverse.dropWhile Char.isWhitespace).reverse := by
    apply dropWhile_append_self Char.isWhitespace _ t.reverse
    rw [← hrev]
    exact hA
  unfold pyStrip
  rw [hBrev, List.reverse_reverse, dropWhile_idem]

/-- A left fold of `min` is below its initial value. -/
theorem foldl_min_le_init (l : List ℚ) : ∀ a : ℚ, l.foldl min a ≤ a := by
  induction l with
  | nil => intro a; simp
  | cons b l ih => intro a; exact le_trans (ih (min a b)) (min_le_left a b)

/-- A left fold of `min` is below every list element. -/
theorem foldl_min_le_mem (l : List ℚ) : ∀ a : ℚ, ∀ x ∈ l, l.foldl min a ≤ x := by
  induction l with
  | nil => intro a x hx; cases hx
  | cons b l ih =>
    intro a x hx
    rcases List.mem_cons.mp hx with h | h
    · subst h
      exact le_trans (foldl_min_le_init l (min a x)) (min_le_right a x)
    · exact ih (min a b) x h

/-- A left fold of `min` is the initial value or a list element. -/
theorem foldl_min_mem (l : List ℚ) : ∀ a : ℚ, l.foldl min a ∈ a :: l := by
  induction l with
  | nil => intro a; simp
  | cons b l ih =>
    intro a
    rw [List.foldl_cons]
    rcases List.mem_cons.mp (ih (min a b)) with h | h
    · rw [h]
      rcases le_total a b with hc | hc
      · rw [min_eq_left hc]; exact List.mem_cons_self _ _
      · rw [min_eq_right hc]; exact List.mem_cons_of_mem _ (List.mem_cons_self _ _)
    · exact List.mem_cons_of_mem _ (List.mem_cons_of_mem _ h)

/-- A left fold of `max` is above its initial value. -/
theorem foldl_max_ge_init (l : List ℚ) : ∀ a : ℚ, a ≤ l.foldl max a := by
  induction l with
  | nil => intro a; simp
  | cons b l ih => intro a; exact le_trans (le_max_left a b) (ih (max a b))

/-- A left fold of `max` is above every list element. -/
theorem foldl_max_ge_mem (l : List ℚ) : ∀ a : ℚ, ∀ x ∈ l, x ≤ l.foldl max a := by
  induction l with
  | nil => intro a x hx; cases hx
  | cons b l ih =>
    intro a x hx
    rcases List.mem_cons.mp hx with h | h
    · subst h
      exact le_trans (le_max_right a x) (foldl_max_ge_init l (max a x))
    · exact ih (max a b) x h

/-- A left fold of `max` is the initial value or a list element. -/
theorem foldl_max_mem (l : List ℚ) : ∀ a : ℚ, l.foldl max a ∈ a :: l := by
  induction l with
  | nil => intro a; simp
  | cons b l ih =>
    intro a
    rw [List.foldl_cons]
    rcases List.mem_cons.mp (ih (max a b)) with h | h
    · rw [h]
      rcases le_total a b with hc | hc
      · rw [max_eq_right hc]; exact List.mem_cons_of_mem _ (List.mem_cons_self _ _)
      · rw [max_eq_left hc]; exact List.mem_cons_self _ _
    · exact List.mem_cons_of_mem _ (List.mem_cons_of_mem _ h)

/-- `pyMin` of a nonempty list is a member of the list that bounds
every element from below (Python `min`). -/
theorem pyMin_spec (l : List ℚ) (h : l ≠ []) :
    ∃ lo, pyMin l = some lo ∧ lo ∈ l ∧ ∀ x ∈ l, lo ≤ x := by
  cases l with
  | nil => exact absurd rfl h
  | cons x xs =>
    refine ⟨xs.foldl min x, rfl, foldl_min_mem xs x, ?_⟩
    intro y hy
    rcases List.mem_cons.mp hy with hyx | hyxs
    · subst hyx; exact foldl_min_le_init xs y
    · exact foldl_min_le_mem xs x y hyxs

/-- `pyMax` of a nonempty list is a member of the list that bounds
every element from above (Python `max`). -/
theorem pyMax_spec (l : List ℚ) (h : l ≠ []) :
    ∃ hi, pyMax l = some hi ∧ hi ∈ l ∧ ∀ x ∈ l, x ≤ hi := by
  cases l with
  | nil => exact absurd rfl h
  | cons x xs =>
    refine ⟨xs.foldl max x, rfl, foldl_max_mem xs x, ?_⟩
    intro y hy
    rcases List.mem_cons.mp hy with hyx | hyxs
    · subst hyx; exact foldl_max_ge_init xs y
    · exact foldl_max_ge_mem xs x y hyxs

/-- If nothing matches, the merge block is the single unmatched row. -/
theorem mergeBlock_none {β : Type} (right : List SRow) (b : BRow β)
    (h : right.filter (fun s => decide (s.districtCode = b.hasc2)) = []) :
    mergeBlock right b = [(b, none)] := by
  unfold mergeBlock
  rw [h]

/-- If the filter of matching right rows is `m :: ms`, the merge block
pairs `b` with each of them in order. -/
theorem mergeBlock_eq_of_filter_cons {β : Type} (right : List SRow) (b : BRow β)
    (m : SRow) (ms : List SRow)
    (h : right.filter (fun s => decide (s.districtCode = b.hasc2)) = m :: ms) :
    mergeBlock right b = (m :: ms).map fun s => (b, some s) := by
  unfold mergeBlock
  rw [h]

/-- The merge block for `b` has one row per match, but at least one. -/
theorem mergeBlock_length {β : Type} (right : List SRow) (b : BRow β) :
    (mergeBlock right b).length
      = max 1 (right.filter (fun s => decide (s.districtCode = b.hasc2))).length := by
  cases h : right.filter (fun s => decide (s.districtCode = b.hasc2)) with
  | nil => rw [mergeBlock_none right b h]; simp
  | cons m ms =>
    rw [mergeBlock_eq_of_filter_cons right b m ms h, List.length_map, List.length_cons]
    simp [Nat.max_def]

/-- Every row of the merge block for `b` carries `b` itself on the
left. -/
theorem mergeBlock_fst {β : Type} (right : List SRow) (b : BRow β) :
    ∀ o ∈ mergeBlock right b, o.1 = b := by
  intro o ho
  cases h : right.filter (fun s => decide (s.districtCode = b.hasc2)) with
  | nil =>
    rw [mergeBlock_none right b h] at ho
    rw [List.mem_singleton.mp ho]
  | cons m ms =>
    rw [mergeBlock_eq_of_filter_cons right b m ms h] at ho
    obtain ⟨s, _, rfl⟩ := List.mem_map.mp ho
    rfl

/-- Every matching right row appears in the merge block for `b`. -/
theorem mergeBlock_mem {β : Type} (right : List SRow) (b : BRow β) (s : SRow)
    (hs : s ∈ right) (hkey : s.districtCode = b.hasc2) :
    (b, some s) ∈ mergeBlock right b := by
  have hf : s ∈ right.filter (fun s => decide (s.districtCode = b.hasc2)) :=
    List.mem_filter.mpr ⟨hs, by simp [hkey]⟩
  cases h : right.filter (fun s => decide (s.districtCode = b.hasc2)) with
  | nil => rw [h] at hf; cases hf
  | cons m ms =>
    rw [mergeBlock_eq_of_filter_cons right b m ms h]
    rw [h] at hf
    exact List.mem_map.mpr ⟨s, hf, rfl⟩

/-- The merge block for `b` is never empty. -/
theorem mergeBlock_exists {β : Type} (right : List SRow) (b : BRow β) :
    ∃ v, (b, v) ∈ mergeBlock right b := by
  cases h : right.filter (fun s => decide (s.districtCode = b.hasc2)) with
  | nil => exact ⟨none, by rw [mergeBlock_none right b h]; exact List.mem_singleton_self _⟩
  | cons m ms =>
    refine ⟨some m, ?_⟩
    rw [mergeBlock_eq_of_filter_cons right b m ms h]
    exact List.mem_map.mpr ⟨m, List.mem_cons_self m ms, rfl⟩

/-- The cleaning pipeline, row by row: every raw row contributes the
block of its normalized codes, each paired with its unchanged numeric
fields. -/
theorem mainDataExploded_flatMap (t : List CodeRow) :
    mainDataExploded t
      = t.flatMap fun r =>
          (normalizeCodes r.districtCode).map fun c => (⟨c, r.fields⟩ : CodeRow) := by
  simp [mainDataExploded, stripCodeCol, splitCodeCol, explodeCodes, normalizeCodes,
    List.map_flatMap, List.flatMap_map, List.map_map, Function.comp_def]

/-! ### Claim theorems -/

/-- C3: whenever the caller supplies both endpoints of the colour
scale, `generate_theft_heatmap` and `generate_summary_stat_heatmap`
pass exactly those two values to the render, with no recomputation
from the data, whatever the data contains. -/
theorem explicitScaleVerbatim :
    ∀ (a b : ℚ) (t : List CodeRow) (col : List ℚ),
      theftScale (some a) (some b) t = some (a, b) ∧
      summScale (some a) (some b) col = (some a, some b) :=
  fun _ _ _ _ => ⟨rfl, rfl⟩

/-- C10: if exactly one of `vmin`, `vmax` is supplied, both endpoints
are recomputed from the statistics data and the supplied endpoint is
discarded — the result is identical to supplying neither. -/
theorem partialScaleRecomputed :
    ∀ (a : ℚ) (t : List CodeRow) (col : List ℚ),
      theftScale (some a) none t = theftScale none none t ∧
      theftScale none (some a) t = theftScale none none t ∧
      summScale (some a) none col = summScale none none col ∧
      summScale none (some a) col = summScale none none col :=
  fun _ _ _ => ⟨rfl, rfl, rfl, rfl⟩

/-- C4: with no explicit scale supplied, the computed `(vmin, vmax)`
pair is the true minimum and true maximum of the union of all values
in the specified columns of the raw statistics table (for the theft
map the three year columns, for the summary map the selected column),
over all rows; and the computed minimum is at most the computed
maximum. -/
theorem recomputedScaleTrueMinMax :
    (∀ t : List CodeRow, t ≠ [] →
      ∃ lo hi, theftScale none none t = some (lo, hi) ∧
        lo ∈ theftRatesAllYears t ∧ hi ∈ theftRatesAllYears t ∧
        (∀ x ∈ theftRatesAllYears t, lo ≤ x ∧ x ≤ hi) ∧ lo ≤ hi) ∧
    (∀ col : List ℚ, col ≠ [] →
      ∃ lo hi, summScale none none col = (some lo, some hi) ∧
        lo ∈ col ∧ hi ∈ col ∧ (∀ x ∈ col, lo ≤ x ∧ x ≤ hi) ∧ lo ≤ hi) := by
  constructor
  · intro t ht
    have hne : theftRatesAllYears t ≠ [] := by
      cases t with
      | nil => exact absurd rfl ht
      | cons r t2 => simp [theftRatesAllYears]
    obtain ⟨lo, hlo, hlomem, hlole⟩ := pyMin_spec _ hne
    obtain ⟨hi, hhi, hhimem, hhige⟩ := pyMax_spec _ hne
    refine ⟨lo, hi, ?_, hlomem, hhimem, fun x hx => ⟨hlole x hx, hhige x hx⟩,
      hlole hi hhimem⟩
    simp [theftScale, hlo, hhi]
  · intro col hcol
    obtain ⟨lo, hlo, hlomem, hlole⟩ := pyMin_spec _ hcol
    obtain ⟨hi, hhi, hhimem, hhige⟩ := pyMax_spec _ hcol
    refine ⟨lo, hi, ?_, hlomem, hhimem, fun x hx => ⟨hlole x hx, hhige x hx⟩,
      hlole hi hhimem⟩
    simp [summScale, hlo, hhi]

/-- Witness for C4 at a concrete three-value column. -/
theorem recomputedScaleTrueMinMax_witness :
    ∃ lo hi, summScale none none [3, 1, 2] = (some lo, some hi) ∧
      lo ∈ ([3, 1, 2] : List ℚ) ∧ hi ∈ ([3, 1, 2] : List ℚ) ∧
      (∀ x ∈ ([3, 1, 2] : List ℚ), lo ≤ x ∧ x ≤ hi) ∧ lo ≤ hi :=
  recomputedScaleTrueMinMax.2 [3, 1, 2] (by decide)

/-- When every boundary key matches at most one statistics row, the
left merge emits exactly one row per boundary row. -/
theorem pdMergeLeft_length_unique {β : Type} (right : List SRow) :
    ∀ left : List (BRow β),
      (∀ b ∈ left,
        (right.filter (fun s => decide (s.districtCode = b.hasc2))).length ≤ 1) →
      (pdMergeLeft left right).length = left.length := by
  intro left
  induction left with
  | nil => intro _; rfl
  | cons b left2 ih =>
    intro h
    have hb := h b (List.mem_cons_self b left2)
    have h2 := ih fun x hx => h x (List.mem_cons_of_mem _ hx)
    simp only [pdMergeLeft, List.flatMap_cons, List.length_append, List.length_cons] at *
    rw [mergeBlock_length]
    omega

/-- C1 (amended): if every boundary key matches at most one statistics
row — in particular whenever the statistics join keys are unique — the
merged output has exactly as many rows as the boundary input, and any
unmatched boundary row appears paired with the explicit missing marker
`none` (never dropped, never a numeric zero). -/
theorem leftJoinRowCount {β : Type} (left : List (BRow β)) (right : List SRow)
    (h : ∀ b ∈ left,
      (right.filter (fun s => decide (s.districtCode = b.hasc2))).length ≤ 1) :
    (pdMergeLeft left right).length = left.length ∧
    ∀ b ∈ left, right.filter (fun s => decide (s.districtCode = b.hasc2)) = [] →
      (b, (none : Option SRow)) ∈ pdMergeLeft left right := by
  refine ⟨pdMergeLeft_length_unique right left h, ?_⟩
  intro b hb hf
  unfold pdMergeLeft
  refine List.mem_flatMap.mpr ⟨b, hb, ?_⟩
  rw [mergeBlock_none right b hf]
  exact List.mem_singleton_self _

/-- Witness for C1: two boundary rows, one matching statistics row;
the merge keeps both rows and marks the unmatched one `none`. -/
theorem leftJoinRowCount_witness :
    (pdMergeLeft [⟨"A1".toList, ()⟩, ⟨"A3".toList, ()⟩]
        [⟨"A1".toList, (10 : ℚ)⟩]).length = 2 ∧
    ((⟨"A3".toList, ()⟩ : BRow Unit), (none : Option SRow))
      ∈ pdMergeLeft [⟨"A1".toList, ()⟩, ⟨"A3".toList, ()⟩] [⟨"A1".toList, (10 : ℚ)⟩] := by
  have h := leftJoinRowCount (β := Unit)
    [⟨"A1".toList, ()⟩, ⟨"A3".toList, ()⟩] [⟨"A1".toList, (10 : ℚ)⟩] (by decide)
  exact ⟨h.1.trans (by decide), h.2 ⟨"A3".toList, ()⟩ (by decide) (by decide)⟩

/-- Counterexample to C1 as stated: one boundary row whose key is
duplicated in the statistics table yields two output rows, not one —
the output row count is not the boundary row count for every
statistics table. -/
theorem leftJoinRowCount_cex :
    (pdMergeLeft [(⟨"A1".toList, ()⟩ : BRow Unit)]
        [⟨"A1".toList, (10 : ℚ)⟩, ⟨"A1".toList, (20 : ℚ)⟩]).length = 2 ∧
    ([(⟨"A1".toList, ()⟩ : BRow Unit)]).length = 1 := by decide

/-- C7 (amended): a duplicated join key does not fail; the merge is a
pure function of the two input orderings, and every matching
statistics row — not only the last — contributes one output row for
the boundary row it matches. -/
theorem duplicateKeyKeepsAllMatches {β : Type} (left : List (BRow β))
    (right : List SRow) (b : BRow β) (hb : b ∈ left) (s : SRow) (hs : s ∈ right)
    (hkey : s.districtCode = b.hasc2) :
    (b, some s) ∈ pdMergeLeft left right := by
  unfold pdMergeLeft
  exact List.mem_flatMap.mpr ⟨b, hb, mergeBlock_mem right b s hs hkey⟩

/-- Witness for C7: with the key `A1` duplicated, the first matching
row's value 10 is present in the merged output. -/
theorem duplicateKeyKeepsAllMatches_witness :
    ((⟨"A1".toList, ()⟩ : BRow Unit), some (⟨"A1".toList, (10 : ℚ)⟩ : SRow))
      ∈ pdMergeLeft [⟨"A1".toList, ()⟩]
        [⟨"A1".toList, (10 : ℚ)⟩, ⟨"A1".toList, (20 : ℚ)⟩] :=
  duplicateKeyKeepsAllMatches [⟨"A1".toList, ()⟩]
    [⟨"A1".toList, (10 : ℚ)⟩, ⟨"A1".toList, (20 : ℚ)⟩] ⟨"A1".toList, ()⟩ (by decide)
    ⟨"A1".toList, (10 : ℚ)⟩ (by decide) (by decide)

/-- Counterexample to C7 as stated: for a duplicated key the merge
emits one row per match; it does not produce the single row holding
the last matching value. -/
theorem duplicateKeyKeepsAllMatches_cex :
    pdMergeLeft [(⟨"A1".toList, ()⟩ : BRow Unit)]
        [⟨"A1".toList, (10 : ℚ)⟩, ⟨"A1".toList, (20 : ℚ)⟩]
      = [(⟨"A1".toList, ()⟩, some ⟨"A1".toList, (10 : ℚ)⟩),
         (⟨"A1".toList, ()⟩, some ⟨"A1".toList, (20 : ℚ)⟩)] ∧
    pdMergeLeft [(⟨"A1".toList, ()⟩ : BRow Unit)]
        [⟨"A1".toList, (10 : ℚ)⟩, ⟨"A1".toList, (20 : ℚ)⟩]
      ≠ [(⟨"A1".toList, ()⟩, some ⟨"A1".toList, (20 : ℚ)⟩)] := by decide

/-- C8: every output row of the merge carries a boundary row verbatim
— key, geometry and all other attributes unmodified — and every
boundary row reaches the output, matched or not. -/
theorem boundaryPassThrough {β : Type} (left : List (BRow β)) (right : List SRow) :
    (∀ o ∈ pdMergeLeft left right, o.1 ∈ left) ∧
    (∀ b ∈ left, ∃ v, (b, v) ∈ pdMergeLeft left right) := by
  constructor
  · intro o ho
    unfold pdMergeLeft at ho
    obtain ⟨b, hb, hob⟩ := List.mem_flatMap.mp ho
    rw [mergeBlock_fst right b o hob]
    exact hb
  · intro b hb
    obtain ⟨v, hv⟩ := mergeBlock_exists right b
    refine ⟨v, ?_⟩
    unfold pdMergeLeft
    exact List.mem_flatMap.mpr ⟨b, hb, hv⟩

/-- Witness for C8: an unmatched boundary row with attribute 7 appears
in the output with its attributes untouched. -/
theorem boundaryPassThrough_witness :
    ∃ v, ((⟨"A3".toList, (7 : ℕ)⟩ : BRow ℕ), v)
      ∈ pdMergeLeft [⟨"A3".toList, (7 : ℕ)⟩] [⟨"A1".toList, (10 : ℚ)⟩] :=
  (boundaryPassThrough [⟨"A3".toList, (7 : ℕ)⟩] [⟨"A1".toList, (10 : ℚ)⟩]).2
    ⟨"A3".toList, (7 : ℕ)⟩ (by decide)

/-- C2 (amended): an absent `Users` or `Population_2011` cell makes
the derived adoption rate `NaN`, which the renderer treats as the
explicit no-data marker; a zero baseline yields `NaN` only when the
users value is also zero — with nonzero users it yields a signed
infinity, a numeric value that is not a no-data marker.  No input
aborts the computation. -/
theorem adoptionZeroBaseline :
    (∀ u : Option ℚ, adoptionRate u none = PVal.nan ∧
      isNoData (adoptionRate u none) = true) ∧
    (∀ p : Option ℚ, adoptionRate none p = PVal.nan) ∧
    adoptionRate (some 0) (some 0) = PVal.nan ∧
    (∀ u : ℚ, 0 < u → adoptionRate (some u) (some 0) = PVal.inf) ∧
    (∀ u : ℚ, u < 0 → adoptionRate (some u) (some 0) = PVal.ninf) := by
  refine ⟨?_, ?_, by decide, ?_, ?_⟩
  · intro u
    cases u <;> simp [adoptionRate, seriesDiv, pvalTimes100, isNoData]
  · intro p
    cases p <;> simp [adoptionRate, seriesDiv, pvalTimes100]
  · intro u hu
    have h0 : ¬(u = 0) := ne_of_gt hu
    simp [adoptionRate, seriesDiv, pvalTimes100, h0, hu]
  · intro u hu
    have h0 : ¬(u = 0) := ne_of_lt hu
    have h1 : ¬(0 < u) := not_lt.mpr hu.le
    simp [adoptionRate, seriesDiv, pvalTimes100, h0, h1]

/-- Witness for C2 at concrete cells. -/
theorem adoptionZeroBaseline_witness :
    adoptionRate (some 1) none = PVal.nan ∧
    adoptionRate (some 1) (some 0) = PVal.inf :=
  ⟨(adoptionZeroBaseline.1 (some 1)).1,
   adoptionZeroBaseline.2.2.2.1 1 (by norm_num)⟩

/-- Counterexample to C2 as stated: a row with 5 users and a zero
population baseline derives the numeric infinity, not a missing
marker; the renderer does not treat it as no-data. -/
theorem adoptionZeroBaseline_cex :
    adoptionRate (some 5) (some 0) = PVal.inf ∧
    isNoData (adoptionRate (some 5) (some 0)) = false := by decide

/-- C5 (amended): the cleaning pipeline turns each raw region-code
cell into the comma-split list of its whitespace-trimmed tokens, order
preserved, comma the sole delimiter; each emitted token is trimmed,
and the example field normalizes to the expected two codes.  (Tokens
can be empty — consecutive, leading or trailing commas are not
filtered out.) -/
theorem codeNormalization :
    (∀ t : List CodeRow, mainDataExploded t
        = t.flatMap fun r =>
            (normalizeCodes r.districtCode).map fun c => (⟨c, r.fields⟩ : CodeRow)) ∧
    (∀ s : Str, ∀ c ∈ normalizeCodes s, pyStrip c = c) ∧
    normalizeCodes " AB01 , CD02 ".toList = ["AB01".toList, "CD02".toList] := by
  refine ⟨mainDataExploded_flatMap, ?_, by decide⟩
  intro s c hc
  simp only [normalizeCodes] at hc
  obtain ⟨x, _, rfl⟩ := List.mem_map.mp hc
  exact pyStrip_idem x

/-- Witness for C5: the first emitted token of the example field is
trim-fixed. -/
theorem codeNormalization_witness :
    pyStrip "AB01".toList = "AB01".toList :=
  codeNormalization.2.1 " AB01 , CD02 ".toList "AB01".toList (by decide)

/-- Counterexample to C5 as stated: a field with consecutive commas
normalizes to a list containing the empty string — the emitted tokens
are not always non-empty. -/
theorem codeNormalization_cex :
    normalizeCodes " AB01 ,, CD02 ".toList
      = ["AB01".toList, "".toList, "CD02".toList] ∧
    ("".toList : Str) ∈ normalizeCodes " AB01 ,, CD02 ".toList := by decide

/-- C6: the explode step is row-independent (the pipeline output is
the concatenation of each row's own expansion); a row whose cell
splits into K comma-separated codes yields exactly K rows, whose codes
are the K trimmed tokens in order, and every other field of every
emitted row equals the original row's value unchanged. -/
theorem explodeExpansion :
    (∀ t : List CodeRow, mainDataExploded t
        = t.flatMap fun r => mainDataExploded [r]) ∧
    (∀ r : CodeRow,
      (mainDataExploded [r]).length = (pySplitComma (pyStrip r.districtCode)).length ∧
      (mainDataExploded [r]).map CodeRow.districtCode
        = (pySplitComma (pyStrip r.districtCode)).map pyStrip ∧
      ∀ e ∈ mainDataExploded [r],
        e.fields = r.fields ∧ pyStrip e.districtCode = e.districtCode) := by
  have hsingle : ∀ r : CodeRow, mainDataExploded [r]
      = (normalizeCodes r.districtCode).map fun c => (⟨c, r.fields⟩ : CodeRow) := by
    intro r
    rw [mainDataExploded_flatMap]
    simp
  constructor
  · intro t
    rw [mainDataExploded_flatMap]
    simp [hsingle]
  · intro r
    refine ⟨?_, ?_, ?_⟩
    · rw [hsingle]
      simp [normalizeCodes]
    · rw [hsingle]
      simp [normalizeCodes, List.map_map, Function.comp_def]
    · intro e he
      rw [hsingle] at he
      obtain ⟨c, hcmem, rfl⟩ := List.mem_map.mp he
      simp only [normalizeCodes] at hcmem
      obtain ⟨x, _, rfl⟩ := List.mem_map.mp hcmem
      exact ⟨rfl, pyStrip_idem x⟩

/-- Witness for C6: a row with two comma-separated codes explodes into
two rows with identical numeric fields. -/
theorem explodeExpansion_witness :
    (mainDataExploded
      [⟨"A1,A2".toList, ⟨10, 11, 12, none, none, none, none⟩⟩]).length = 2 :=
  (explodeExpansion.2 ⟨"A1,A2".toList, ⟨10, 11, 12, none, none, none, none⟩⟩).1.trans
    (by decide)

/-- C9: the GeoJSON→Shapefile conversion runs exactly when the
shapefile is absent; when it is present nothing is converted and the
file system is returned unchanged; and a repeated call after any
successful run converts nothing further. -/
theorem ensureShapefileLazy :
    (∀ fs : List String, india_districts_shp ∈ fs →
      ensure_shapefile fs = some (fs, false)) ∧
    (∀ fs : List String, india_districts_shp ∉ fs → india_districts_gjson ∈ fs →
      ensure_shapefile fs = some (india_districts_shp :: fs, true)) ∧
    (∀ (fs : List String) (r : List String × Bool), ensure_shapefile fs = some r →
      ensure_shapefile r.1 = some (r.1, false)) := by
  refine ⟨?_, ?_, ?_⟩
  · intro fs hmem
    simp [ensure_shapefile, hmem]
  · intro fs hmem hg
    simp [ensure_shapefile, convert_geojson_to_shp, hmem, hg]
  · intro fs r h
    by_cases hmem : india_districts_shp ∈ fs
    · simp [ensure_shapefile, hmem] at h
      rw [← h]
      simp [ensure_shapefile, hmem]
    · by_cases hg : india_districts_gjson ∈ fs
      · simp [ensure_shapefile, convert_geojson_to_shp, hmem, hg] at h
        rw [← h]
        simp [ensure_shapefile]
      · simp [ensure_shapefile, convert_geojson_to_shp, hmem, hg] at h

/-- Witness for C9: starting from a file system holding only the
GeoJSON, the first call converts and the second call does nothing. -/
theorem ensureShapefileLazy_witness :
    ensure_shapefile [india_districts_gjson]
      = some ([india_districts_shp, india_districts_gjson], true) ∧
    ensure_shapefile [india_districts_shp, india_districts_gjson]
      = some ([india_districts_shp, india_districts_gjson], false) :=
  ⟨ensureShapefileLazy.2.1 [india_districts_gjson] (by decide) (by decide),
   ensureShapefileLazy.1 [india_districts_shp, india_districts_gjson] (by decide)⟩
